import Mathlib

/-!
Shallow embedding of the lab1-cpp concurrency toolkit and its parallel BFS
(src/Graph.cpp, src/Graph.h, src/bedrock.cpp, src/bedrock.h), together with
proofs settling the specification claims.

Machine integers (C++ `int`, `size_t`) are modelled as `Int`/`Nat`; where the
code relies on unsigned wrap-around (the `size_t` counter of `WaitGroup`) the
arithmetic is taken modulo `2 ^ w` explicitly.  Concurrency is modelled by
making the nondeterminism explicit: a parallel BFS execution is a relation
parameterised by the interleaving of the CAS operations of each level (any
permutation of the level's attempt list), and queue/wait-group histories are
sequences of operations.
-/

namespace Spec2Proof

/-- Directed graph as in src/Graph.h: a vertex count and an adjacency list
(`matrix_`), one row per vertex. -/
structure Graph where
  vertexCount : Nat
  matrix : List (List Nat)

/-- Constructor Graph::Graph(int vertices): vertexCount_ = vertices and
matrix_ sized to `vertices` empty rows. -/
def Graph.make (vertices : Nat) : Graph :=
  ⟨vertices, List.replicate vertices []⟩

/-- Row of the adjacency matrix for vertex u (matrix_[u]). -/
def Graph.adj (g : Graph) (u : Nat) : List Nat :=
  g.matrix.getD u []

/-- Graph::addEdge: ignore out-of-range endpoints, then append dest to
matrix_[src] unless already present (insert-if-absent). -/
def Graph.addEdge (g : Graph) (src dest : Int) : Graph :=
  if src < 0 ∨ dest < 0 ∨ (g.vertexCount : Int) ≤ src ∨ (g.vertexCount : Int) ≤ dest then g
  else
    let row := g.adj src.toNat
    if dest.toNat ∈ row then g
    else ⟨g.vertexCount, g.matrix.set src.toNat (row ++ [dest.toNat])⟩

/-- Well-formedness maintained by the constructor and addEdge: the matrix has
one row per vertex and every stored neighbour index is in range. -/
def Graph.WF (g : Graph) : Prop :=
  g.matrix.length = g.vertexCount ∧
    ∀ row ∈ g.matrix, ∀ v ∈ row, v < g.vertexCount

/-- Edge-step relation of the stored graph: v is listed among u's neighbours. -/
def Graph.Edge (g : Graph) (u v : Nat) : Prop :=
  v ∈ g.adj u

/-- Reachability along stored edges (reflexive-transitive closure). -/
def Graph.Reaches (g : Graph) (s v : Nat) : Prop :=
  Relation.ReflTransGen g.Edge s v

/-! Sequential reference traversal Graph::bfs (src/Graph.cpp lines 83-103).
The visited array is a `List Bool`; the queue is a `List Nat` popped at the
head and pushed at the tail. -/

/-- Inner loop of Graph::bfs over the neighbour list of the popped vertex:
for each unvisited neighbour, mark it and push it. -/
def bfsScan (visited : List Bool) (q : List Nat) : List Nat → List Bool × List Nat
  | [] => (visited, q)
  | v :: rest =>
    if visited.getD v true then bfsScan visited q rest
    else bfsScan (visited.set v true) (q ++ [v]) rest

/-- Outer loop of Graph::bfs, with explicit fuel (the loop performs at most
`vertexCount` pops, see the measure argument in the proofs below). -/
def bfsLoop (g : Graph) : Nat → List Bool → List Nat → List Bool
  | 0, visited, _ => visited
  | _ + 1, visited, [] => visited
  | fuel + 1, visited, u :: q =>
    let p := bfsScan visited q (g.adj u)
    bfsLoop g fuel p.1 p.2

/-- Graph::bfs: guard out-of-range start vertices (silent no-op, no flag is
ever set), otherwise mark the start and run the queue loop. -/
def Graph.bfs (g : Graph) (startVertex : Int) : List Bool :=
  if startVertex < 0 ∨ (g.vertexCount : Int) ≤ startVertex then
    List.replicate g.vertexCount false
  else
    bfsLoop g g.vertexCount
      ((List.replicate g.vertexCount false).set startVertex.toNat true)
      [startVertex.toNat]

/-! Parallel traversal Graph::parallelBFS (src/Graph.cpp lines 40-81).
A level processes the attempt list (each frontier vertex's neighbours, over
all chunk tasks) with the atomic compare-and-swap on the visited flag; the
interleaving of the workers is modelled as an arbitrary permutation of that
attempt list. -/

/-- Sequentialised effect of the CAS loop: walk an attempt list; on each
vertex whose flag is still false, flip it to true and record the claim
(visited[v].flag.compare_exchange_strong(expected=false, true)).  Out-of-range
reads never occur in well-formed runs; they are modelled as a failed CAS. -/
def casFold (visited : List Bool) : List Nat → List Bool × List Nat
  | [] => (visited, [])
  | v :: rest =>
    if visited.getD v true then casFold visited rest
    else
      let p := casFold (visited.set v true) rest
      (p.1, v :: p.2)

/-- Executions of the level loop of Graph::parallelBFS, from a visited array
and a current frontier.  Each level fixes an interleaving `order` of the CAS
attempts (a permutation of the concatenated neighbour lists of the frontier);
the vertices claimed by the successful CASes form the next frontier, and are
also appended to the run's claim log.  The run ends when a frontier is
empty. -/
inductive ParRun (g : Graph) : List Bool → List Nat → List Nat → List Bool → Prop where
  | nil : ∀ visited, ParRun g visited [] [] visited
  | step : ∀ visited frontier order log final,
      order.Perm (frontier.flatMap g.adj) →
      ParRun g (casFold visited order).1 (casFold visited order).2 log final →
      ParRun g visited frontier ((casFold visited order).2 ++ log) final

/-- Chunk size of a level: (currentLevel.size() + THREAD_COUNT - 1) / THREAD_COUNT
(src/Graph.cpp line 56). -/
def chunkSize (len threadCount : Nat) : Nat :=
  (len + threadCount - 1) / threadCount

/-- WaitGroup count of a level: 1 + ((currentLevel.size() - 1) / chunkSize)
(src/Graph.cpp line 57). -/
def wgCount (len cs : Nat) : Nat :=
  1 + (len - 1) / cs

/-- Contiguous partition of a list into chunks of size cs (the loop
`for (chunkStart = 0; chunkStart < size; chunkStart += chunkSize)` with
`chunkEnd = min(chunkStart + chunkSize, size)`), with fuel (the loop runs at
most `length` times when cs ≥ 1). -/
def chunksOf (cs : Nat) : Nat → List Nat → List (List Nat)
  | _, [] => []
  | 0, l => [l]
  | fuel + 1, l => l.take cs :: chunksOf cs fuel (l.drop cs)

/-- The chunks of one level of Graph::parallelBFS. -/
def levelChunks (threadCount : Nat) (frontier : List Nat) : List (List Nat) :=
  chunksOf (chunkSize frontier.length threadCount) frontier.length frontier

/-- Canonical (program-order) execution of the chunk tasks of one level:
each task CASes the neighbours of its chunk in order and its claimed vertices
are merged into the next frontier in chunk order. -/
def runChunks (g : Graph) (visited : List Bool) : List (List Nat) → List Bool × List Nat
  | [] => (visited, [])
  | c :: cs =>
    let p := casFold visited (c.flatMap g.adj)
    let q := runChunks g p.1 cs
    (q.1, p.2 ++ q.2)

/-- Canonical level loop of Graph::parallelBFS, returning the log of vertices
claimed by CAS, levels in order (fuel bounds the number of levels). -/
def parLoop (g : Graph) (threadCount : Nat) : Nat → List Bool → List Nat → List Nat
  | 0, _, _ => []
  | fuel + 1, visited, frontier =>
    if frontier.isEmpty then []
    else
      let p := runChunks g visited (levelChunks threadCount frontier)
      p.2 ++ parLoop g threadCount fuel p.1 p.2

/-- Graph::parallelBFS, observed through the sequence of vertices whose
visited flag is stored/CASed to true, in canonical program order.  An
out-of-range start vertex returns immediately: nothing is allocated and no
vertex is ever marked (src/Graph.cpp lines 42-43). -/
def Graph.parallelBFSMarks (g : Graph) (threadCount : Nat) (startVertex : Int) : List Nat :=
  if startVertex < 0 ∨ (g.vertexCount : Int) ≤ startVertex then []
  else
    startVertex.toNat ::
      parLoop g threadCount (g.vertexCount + 1)
        ((List.replicate g.vertexCount false).set startVertex.toNat true)
        [startVertex.toNat]

/-! UnboundedBlockingQueue (src/bedrock.h lines 104-163). -/

/-- Lifecycle states of the queue (enum class State). -/
inductive QState where
  | running
  | stopped
  | forceStopped
deriving DecidableEq

/-- Snapshot of the queue's protected pair: the state and the FIFO items. -/
structure BQueue (α : Type) where
  state : QState
  items : List α

/-- UnboundedBlockingQueue::Emplace: under the lock, refuse unless RUNNING,
otherwise append the value; the Bool is the return value.  Push(value)
delegates to Emplace. -/
def Emplace (q : BQueue α) (v : α) : Bool × BQueue α :=
  if q.state = QState.running then (true, ⟨q.state, q.items ++ [v]⟩)
  else (false, q)

/-- UnboundedBlockingQueue::Push(value): delegates to Emplace. -/
def Push (q : BQueue α) (v : α) : Bool × BQueue α :=
  Emplace q v

/-- UnboundedBlockingQueue::Stop: set the state to the given value. -/
def Stop (q : BQueue α) (s : QState) : BQueue α :=
  ⟨s, q.items⟩

/-- UnboundedBlockingQueue::Pop once its wait condition
(state ≠ RUNNING ∨ queue nonempty) lets it proceed: FORCE_STOPPED returns
empty at once, otherwise the front item is taken if present. -/
def Pop (q : BQueue α) : Option α × BQueue α :=
  if q.state = QState.forceStopped then (none, q)
  else
    match q.items with
    | [] => (none, q)
    | x :: xs => (some x, ⟨q.state, xs⟩)

/-- Wait condition of Pop (the condition-variable predicate): Pop may return
only once the state is non-RUNNING or an item is queued. -/
def popReady (q : BQueue α) : Prop :=
  q.state ≠ QState.running ∨ q.items ≠ []

/-- Repeatedly Pop n times, collecting the returned items. -/
def popAll : Nat → BQueue α → List α × BQueue α
  | 0, q => ([], q)
  | n + 1, q =>
    match Pop q with
    | (none, q1) => ([], q1)
    | (some x, q1) =>
      let r := popAll n q1
      (x :: r.1, r.2)

/-- History operations against the queue. -/
inductive QOp (α : Type) where
  | push (v : α)
  | pop
  | stop (s : QState)

/-- Run a sequence of operations: returns the final queue, the list of items
returned by the Pops, and the list of values whose Push returned true. -/
def runOps : List (QOp α) → BQueue α → BQueue α × List α × List α
  | [], q => (q, [], [])
  | QOp.push v :: ops, q =>
    let e := Emplace q v
    let r := runOps ops e.2
    (r.1, r.2.1, if e.1 then v :: r.2.2 else r.2.2)
  | QOp.pop :: ops, q =>
    let p := Pop q
    let r := runOps ops p.2
    (r.1, (match p.1 with | some x => x :: r.2.1 | none => r.2.1), r.2.2)
  | QOp.stop s :: ops, q => runOps ops (Stop q s)

/-- True when no operation of the history calls Stop with the RUNNING
argument (the spec's Stop contract: Stop transitions to STOPPED or
FORCE_STOPPED). -/
def stopsNonRunning : List (QOp α) → Bool
  | [] => true
  | QOp.push _ :: ops => stopsNonRunning ops
  | QOp.pop :: ops => stopsNonRunning ops
  | QOp.stop QState.running :: _ => false
  | QOp.stop QState.stopped :: ops => stopsNonRunning ops
  | QOp.stop QState.forceStopped :: ops => stopsNonRunning ops

/-! WaitGroup (src/bedrock.cpp lines 29-49).  count_ is a size_t: arithmetic
is modulo 2 ^ w. -/

/-- WaitGroup::Done: count_ -= 1 on a w-bit unsigned counter. -/
def wgDone (w c : Nat) : Nat :=
  (c + (2 ^ w - 1)) % 2 ^ w

/-- WaitGroup::Add: count_ += k on a w-bit unsigned counter. -/
def wgAdd (w c k : Nat) : Nat :=
  (c + k) % 2 ^ w

/-- Events of a WaitGroup history. -/
inductive WGEvent where
  | add (k : Nat)
  | done

/-- Counter update of one event. -/
def wgStep (w c : Nat) : WGEvent → Nat
  | WGEvent.add k => wgAdd w c k
  | WGEvent.done => wgDone w c

/-- Counter value after a history, starting from the constructor count n. -/
def wgRun (w n : Nat) (evs : List WGEvent) : Nat :=
  evs.foldl (wgStep w) (n % 2 ^ w)

/-- Number of Done events of a history. -/
def donesCount : List WGEvent → Nat
  | [] => 0
  | WGEvent.done :: t => 1 + donesCount t
  | WGEvent.add _ :: t => donesCount t

/-- Sum of the Add amounts of a history. -/
def addsSum : List WGEvent → Nat
  | [] => 0
  | WGEvent.done :: t => addsSum t
  | WGEvent.add k :: t => k + addsSum t

/-- Condition under which WaitGroup::Wait returns: the counter is zero. -/
def wgWaitReturns (w n : Nat) (evs : List WGEvent) : Prop :=
  wgRun w n evs = 0

/-! ThreadPool (src/bedrock.cpp lines 5-15) and the THREAD_COUNT startup
configuration (src/Graph.cpp lines 10-20). -/

/-- ThreadPool::ThreadPool: the constructor's loop emplaces exactly
num_threads worker threads into threads_ (one entry per iteration). -/
def mkWorkers (numThreads : Nat) : List Nat :=
  List.range numThreads

/-- THREAD_COUNT initialiser: if the TP_SIZE environment value parses to a
positive integer use it, otherwise fall back to hardware_concurrency().  The
parsed atoi result is modelled as an Int, the hardware value as a Nat. -/
def threadCountOf (env : Option Int) (hardware : Nat) : Nat :=
  match env with
  | some v => if 0 < v then v.toNat else hardware
  | none => hardware

/-! Basic facts about Boolean flag arrays. -/

theorem getD_set_eq (l : List Bool) (i j : Nat) (b : Bool) :
    (l.set i b).getD j false = if i = j ∧ j < l.length then b else l.getD j false := by
  rw [List.getD_eq_getElem?_getD, List.getD_eq_getElem?_getD, List.getElem?_set]
  by_cases hij : i = j
  · subst hij
    by_cases hl : i < l.length
    · simp [hl]
    · rw [List.getElem?_eq_none (by omega)]
      simp [hl]
  · simp [hij]

theorem getD_set_self (l : List Bool) (i : Nat) (b : Bool) (h : i < l.length) :
    (l.set i b).getD i false = b := by
  rw [getD_set_eq]
  simp [h]

theorem getD_set_ne (l : List Bool) (i j : Nat) (b : Bool) (h : i ≠ j) :
    (l.set i b).getD j false = l.getD j false := by
  rw [getD_set_eq]
  simp [h]

theorem getD_true_false (l : List Bool) (v : Nat) (h : l.getD v true = false) :
    v < l.length ∧ l.getD v false = false := by
  by_cases hv : v < l.length
  · refine ⟨hv, ?_⟩
    rw [List.getD_eq_getElem?_getD, List.getElem?_eq_getElem hv] at h ⊢
    exact h
  · rw [List.getD_eq_getElem?_getD, List.getElem?_eq_none (by omega)] at h
    simp at h

theorem getD_false_of_getD_true (l : List Bool) (v : Nat) (h : l.getD v true = false) :
    l.getD v false = false :=
  (getD_true_false l v h).2

theorem getD_true_of_false (l : List Bool) (v : Nat) (hv : v < l.length)
    (h : l.getD v false = false) : l.getD v true = false := by
  rw [List.getD_eq_getElem?_getD, List.getElem?_eq_getElem hv] at h ⊢
  exact h

theorem getD_lt_length (l : List Bool) (v : Nat) (h : l.getD v false = true) :
    v < l.length := by
  by_contra hn
  rw [List.getD_eq_getElem?_getD, List.getElem?_eq_none (by omega)] at h
  simp at h

theorem getD_replicate_false (n j : Nat) :
    (List.replicate n false).getD j false = false := by
  rw [List.getD_eq_getElem?_getD, List.getElem?_replicate]
  by_cases h : j < n <;> simp [h]

theorem initVisited_getD (n s w : Nat) (hs : s < n) :
    ((List.replicate n false).set s true).getD w false = true ↔ w = s := by
  rw [getD_set_eq]
  by_cases h : s = w
  · subst h
    simp [hs]
  · simp [h, getD_replicate_false]
    omega

theorem count_set_true (l : List Bool) (i : Nat) (h : i < l.length)
    (hf : l.getD i false = false) :
    (l.set i true).count true = l.count true + 1 := by
  have hg : l[i] = false := by
    rw [← List.getD_eq_getElem l false h]
    exact hf
  rw [List.count_set true true l i h, hg]
  simp

theorem count_init_visited (n s : Nat) (hs : s < n) :
    ((List.replicate n false).set s true).count true = 1 := by
  rw [count_set_true]
  · rw [List.count_replicate]
    simp
  · simp [hs]
  · exact getD_replicate_false n s

/-! Properties of the CAS sweep casFold. -/

theorem casFold_length (visited : List Bool) (l : List Nat) :
    (casFold visited l).1.length = visited.length := by
  induction l generalizing visited with
  | nil => rfl
  | cons v rest ih =>
    simp only [casFold]
    cases hv : visited.getD v true with
    | true =>
      rw [if_pos rfl]
      exact ih visited
    | false =>
      rw [if_neg Bool.false_ne_true]
      rw [ih (visited.set v true), List.length_set]

theorem casFold_monotone (visited : List Bool) (l : List Nat) (w : Nat)
    (h : visited.getD w false = true) :
    (casFold visited l).1.getD w false = true := by
  induction l generalizing visited with
  | nil => exact h
  | cons v rest ih =>
    simp only [casFold]
    cases hv : visited.getD v true with
    | true =>
      rw [if_pos rfl]
      exact ih visited h
    | false =>
      have hvlt := getD_true_false visited v hv
      rw [if_neg Bool.false_ne_true]
      apply ih
      by_cases hwv : v = w
      · subst hwv
        rw [getD_set_self _ _ _ hvlt.1]
      · rw [getD_set_ne _ _ _ _ hwv]
        exact h

theorem casFold_visited_iff (visited : List Bool) (l : List Nat) (w : Nat)
    (hl : ∀ v ∈ l, v < visited.length) :
    (casFold visited l).1.getD w false = true ↔
      visited.getD w false = true ∨ w ∈ l := by
  induction l generalizing visited with
  | nil => simp [casFold]
  | cons v rest ih =>
    have hvlt : v < visited.length := hl v (by simp)
    cases hv : visited.getD v true with
    | true =>
      have hvtrue : visited.getD v false = true := by
        rw [List.getD_eq_getElem?_getD, List.getElem?_eq_getElem hvlt] at hv ⊢
        exact hv
      simp only [casFold, hv, if_true]
      rw [ih visited (fun x hx => hl x (by simp [hx]))]
      constructor
      · intro h
        rcases h with h | h
        · exact Or.inl h
        · exact Or.inr (by simp [h])
      · intro h
        rcases h with h | h
        · exact Or.inl h
        · rcases List.mem_cons.mp h with h | h
          · subst h
            exact Or.inl hvtrue
          · exact Or.inr h
    | false =>
      simp only [casFold, hv, Bool.false_eq_true, if_false]
      have hlen : ∀ x ∈ rest, x < (visited.set v true).length := by
        intro x hx
        rw [List.length_set]
        exact hl x (by simp [hx])
      rw [ih (visited.set v true) hlen, getD_set_eq]
      by_cases hwv : v = w
      · subst hwv
        simp [hvlt]
      · simp only [hwv, false_and, if_false]
        constructor
        · intro h
          rcases h with h | h
          · exact Or.inl h
          · exact Or.inr (by simp [h])
        · intro h
          rcases h with h | h
          · exact Or.inl h
          · rcases List.mem_cons.mp h with h | h
            · exact absurd h.symm hwv
            · exact Or.inr h

theorem casFold_claimed_sub (visited : List Bool) (l : List Nat) (w : Nat)
    (h : w ∈ (casFold visited l).2) :
    w ∈ l ∧ w < visited.length ∧ visited.getD w false = false := by
  induction l generalizing visited with
  | nil => simp [casFold] at h
  | cons v rest ih =>
    cases hv : visited.getD v true with
    | true =>
      rw [casFold, hv, if_pos rfl] at h
      have := ih visited h
      exact ⟨by simp [this.1], this.2.1, this.2.2⟩
    | false =>
      have hvlt := getD_true_false visited v hv
      simp only [casFold, hv, Bool.false_eq_true, if_false] at h
      rcases List.mem_cons.mp h with h | h
      · subst h
        exact ⟨by simp, hvlt.1, hvlt.2⟩
      · have := ih (visited.set v true) h
        have hwv : v ≠ w := by
          intro he
          subst he
          rw [getD_set_self _ _ _ hvlt.1] at this
          exact absurd this.2.2 (by simp)
        refine ⟨by simp [this.1], ?_, ?_⟩
        · rw [List.length_set] at this
          exact this.2.1
        · rw [getD_set_ne _ _ _ _ hwv] at this
          exact this.2.2

theorem casFold_claimed_mem (visited : List Bool) (l : List Nat) (w : Nat)
    (hl : ∀ v ∈ l, v < visited.length) :
    w ∈ (casFold visited l).2 ↔ w ∈ l ∧ visited.getD w false = false := by
  constructor
  · intro h
    exact ⟨(casFold_claimed_sub visited l w h).1, (casFold_claimed_sub visited l w h).2.2⟩
  · intro h
    induction l generalizing visited with
    | nil => simp at h
    | cons v rest ih =>
      have hvlt : v < visited.length := hl v (by simp)
      cases hv : visited.getD v true with
      | true =>
        have hvtrue : visited.getD v false = true := by
          rw [List.getD_eq_getElem?_getD, List.getElem?_eq_getElem hvlt] at hv ⊢
          exact hv
        rw [casFold, hv, if_pos rfl]
        have hwr : w ∈ rest := by
          rcases List.mem_cons.mp h.1 with he | he
          · subst he
            rw [hvtrue] at h
            exact absurd h.2 (by simp)
          · exact he
        exact ih visited (fun x hx => hl x (by simp [hx])) ⟨hwr, h.2⟩
      | false =>
        simp only [casFold, hv, Bool.false_eq_true, if_false]
        by_cases hwv : w = v
        · subst hwv
          simp
        · have hwr : w ∈ rest := by
            rcases List.mem_cons.mp h.1 with he | he
            · exact absurd he hwv
            · exact he
          refine List.mem_cons.mpr (Or.inr ?_)
          apply ih (visited.set v true)
          · intro x hx
            rw [List.length_set]
            exact hl x (by simp [hx])
          · refine ⟨hwr, ?_⟩
            rw [getD_set_ne _ _ _ _ (fun he => hwv he.symm)]
            exact h.2

theorem casFold_claimed_flag (visited : List Bool) (l : List Nat) (w : Nat)
    (h : w ∈ (casFold visited l).2) :
    (casFold visited l).1.getD w false = true := by
  induction l generalizing visited with
  | nil => simp [casFold] at h
  | cons v rest ih =>
    cases hv : visited.getD v true with
    | true =>
      rw [casFold, hv, if_pos rfl] at h ⊢
      exact ih visited h
    | false =>
      have hvlt := getD_true_false visited v hv
      simp only [casFold, hv, Bool.false_eq_true, if_false] at h ⊢
      rcases List.mem_cons.mp h with he | he
      · subst he
        exact casFold_monotone _ rest w (getD_set_self _ _ _ hvlt.1)
      · exact ih (visited.set v true) he

theorem casFold_claimed_nodup (visited : List Bool) (l : List Nat) :
    (casFold visited l).2.Nodup := by
  induction l generalizing visited with
  | nil => simp [casFold]
  | cons v rest ih =>
    cases hv : visited.getD v true with
    | true =>
      rw [casFold, hv, if_pos rfl]
      exact ih visited
    | false =>
      have hvlt := getD_true_false visited v hv
      simp only [casFold, hv, Bool.false_eq_true, if_false]
      rw [List.nodup_cons]
      refine ⟨?_, ih (visited.set v true)⟩
      intro hmem
      have := (casFold_claimed_sub _ rest v hmem).2.2
      rw [getD_set_self _ _ _ hvlt.1] at this
      simp at this

/-! Graph well-formedness and reachability. -/

theorem adj_lt (g : Graph) (h : g.WF) (u v : Nat) (hv : v ∈ g.adj u) :
    v < g.vertexCount := by
  unfold Graph.adj at hv
  by_cases hu : u < g.matrix.length
  · rw [List.getD_eq_getElem g.matrix [] hu] at hv
    exact h.2 _ (List.getElem_mem hu) v hv
  · rw [List.getD_eq_getElem?_getD, List.getElem?_eq_none (by omega)] at hv
    simp at hv

theorem reaches_of_closed (g : Graph) (s : Nat) (P : Nat → Prop)
    (hs : P s) (hcl : ∀ u, P u → ∀ v ∈ g.adj u, P v) :
    ∀ w, g.Reaches s w → P w := by
  intro w h
  induction h with
  | refl => exact hs
  | tail _ h₂ ih => exact hcl _ ih _ h₂

theorem wf_make (n : Nat) : (Graph.make n).WF := by
  constructor
  · simp [Graph.make]
  · intro row hrow v hv
    rw [List.eq_of_mem_replicate hrow] at hv
    simp at hv

theorem wf_addEdge (g : Graph) (h : g.WF) (src dest : Int) :
    (g.addEdge src dest).WF := by
  unfold Graph.addEdge
  by_cases hg : src < 0 ∨ dest < 0 ∨ (g.vertexCount : Int) ≤ src ∨ (g.vertexCount : Int) ≤ dest
  · rw [if_pos hg]
    exact h
  · rw [if_neg hg]
    by_cases hm : dest.toNat ∈ g.adj src.toNat
    · rw [if_pos hm]
      exact h
    · rw [if_neg hm]
      constructor
      · rw [List.length_set]
        exact h.1
      · intro row hrow v hv
        rcases List.mem_or_eq_of_mem_set hrow with hr | hr
        · exact h.2 row hr v hv
        · subst hr
          rcases List.mem_append.mp hv with hva | hva
          · exact adj_lt g h src.toNat v hva
          · have : v = dest.toNat := by simpa using hva
            subst this
            push_neg at hg
            show dest.toNat < g.vertexCount
            omega

/-! Properties of the neighbour scan of the sequential BFS. -/

theorem bfsScan_length (visited : List Bool) (q : List Nat) (ns : List Nat) :
    (bfsScan visited q ns).1.length = visited.length := by
  induction ns generalizing visited q with
  | nil => rfl
  | cons v rest ih =>
    simp only [bfsScan]
    cases hv : visited.getD v true with
    | true =>
      rw [if_pos rfl]
      exact ih visited q
    | false =>
      rw [if_neg Bool.false_ne_true]
      rw [ih (visited.set v true) (q ++ [v]), List.length_set]

theorem bfsScan_visited_iff (visited : List Bool) (q : List Nat) (ns : List Nat) (w : Nat)
    (hl : ∀ v ∈ ns, v < visited.length) :
    (bfsScan visited q ns).1.getD w false = true ↔
      visited.getD w false = true ∨ w ∈ ns := by
  induction ns generalizing visited q with
  | nil => simp [bfsScan]
  | cons v rest ih =>
    have hvlt : v < visited.length := hl v (by simp)
    simp only [bfsScan]
    cases hv : visited.getD v true with
    | true =>
      have hvtrue : visited.getD v false = true := by
        rw [List.getD_eq_getElem?_getD, List.getElem?_eq_getElem hvlt] at hv ⊢
        exact hv
      rw [if_pos rfl, ih visited q (fun x hx => hl x (by simp [hx]))]
      constructor
      · intro h
        rcases h with h | h
        · exact Or.inl h
        · exact Or.inr (by simp [h])
      · intro h
        rcases h with h | h
        · exact Or.inl h
        · rcases List.mem_cons.mp h with h | h
          · subst h
            exact Or.inl hvtrue
          · exact Or.inr h
    | false =>
      rw [if_neg Bool.false_ne_true]
      have hlen : ∀ x ∈ rest, x < (visited.set v true).length := by
        intro x hx
        rw [List.length_set]
        exact hl x (by simp [hx])
      rw [ih (visited.set v true) (q ++ [v]) hlen, getD_set_eq]
      by_cases hwv : v = w
      · subst hwv
        simp [hvlt]
      · simp only [hwv, false_and, if_false]
        constructor
        · intro h
          rcases h with h | h
          · exact Or.inl h
          · exact Or.inr (by simp [h])
        · intro h
          rcases h with h | h
          · exact Or.inl h
          · rcases List.mem_cons.mp h with h | h
            · exact absurd h.symm hwv
            · exact Or.inr h

theorem bfsScan_append (visited : List Bool) (q : List Nat) (ns : List Nat) :
    ∃ ext, (bfsScan visited q ns).2 = q ++ ext := by
  induction ns generalizing visited q with
  | nil => exact ⟨[], by simp [bfsScan]⟩
  | cons v rest ih =>
    simp only [bfsScan]
    cases hv : visited.getD v true with
    | true =>
      rw [if_pos rfl]
      exact ih visited q
    | false =>
      rw [if_neg Bool.false_ne_true]
      rcases ih (visited.set v true) (q ++ [v]) with ⟨ext, hext⟩
      exact ⟨v :: ext, by simp [hext]⟩

theorem bfsScan_q_mem (visited : List Bool) (q : List Nat) (ns : List Nat) (w : Nat)
    (hl : ∀ v ∈ ns, v < visited.length) :
    w ∈ (bfsScan visited q ns).2 ↔
      w ∈ q ∨ (w ∈ ns ∧ visited.getD w false = false) := by
  induction ns generalizing visited q with
  | nil => simp [bfsScan]
  | cons v rest ih =>
    have hvlt : v < visited.length := hl v (by simp)
    simp only [bfsScan]
    cases hv : visited.getD v true with
    | true =>
      have hvtrue : visited.getD v false = true := by
        rw [List.getD_eq_getElem?_getD, List.getElem?_eq_getElem hvlt] at hv ⊢
        exact hv
      rw [if_pos rfl, ih visited q (fun x hx => hl x (by simp [hx]))]
      constructor
      · intro h
        rcases h with h | h
        · exact Or.inl h
        · exact Or.inr ⟨by simp [h.1], h.2⟩
      · intro h
        rcases h with h | h
        · exact Or.inl h
        · rcases List.mem_cons.mp h.1 with he | he
          · subst he
            rw [hvtrue] at h
            exact absurd h.2 (by simp)
          · exact Or.inr ⟨he, h.2⟩
    | false =>
      have hvfalse := getD_true_false visited v hv
      rw [if_neg Bool.false_ne_true]
      have hlen : ∀ x ∈ rest, x < (visited.set v true).length := by
        intro x hx
        rw [List.length_set]
        exact hl x (by simp [hx])
      rw [ih (visited.set v true) (q ++ [v]) hlen]
      constructor
      · intro h
        rcases h with h | h
        · rcases List.mem_append.mp h with h | h
          · exact Or.inl h
          · have : w = v := by simpa using h
            subst this
            exact Or.inr ⟨by simp, hvfalse.2⟩
        · refine Or.inr ⟨by simp [h.1], ?_⟩
          have hwv : v ≠ w := by
            intro he
            subst he
            rw [getD_set_self _ _ _ hvlt] at h
            exact absurd h.2 (by simp)
          rw [getD_set_ne _ _ _ _ hwv] at h
          exact h.2
      · intro h
        rcases h with h | h
        · exact Or.inl (List.mem_append.mpr (Or.inl h))
        · rcases List.mem_cons.mp h.1 with he | he
          · subst he
            exact Or.inl (by simp)
          · by_cases hwv : v = w
            · subst hwv
              exact Or.inl (by simp)
            · refine Or.inr ⟨he, ?_⟩
              rw [getD_set_ne _ _ _ _ hwv]
              exact h.2

theorem bfsScan_count (visited : List Bool) (q : List Nat) (ns : List Nat)
    (hl : ∀ v ∈ ns, v < visited.length) :
    (bfsScan visited q ns).1.count true + q.length =
      visited.count true + (bfsScan visited q ns).2.length := by
  induction ns generalizing visited q with
  | nil => simp [bfsScan]
  | cons v rest ih =>
    have hvlt : v < visited.length := hl v (by simp)
    simp only [bfsScan]
    cases hv : visited.getD v true with
    | true =>
      rw [if_pos rfl]
      exact ih visited q (fun x hx => hl x (by simp [hx]))
    | false =>
      have hvfalse := getD_true_false visited v hv
      rw [if_neg Bool.false_ne_true]
      have hlen : ∀ x ∈ rest, x < (visited.set v true).length := by
        intro x hx
        rw [List.length_set]
        exact hl x (by simp [hx])
      have := ih (visited.set v true) (q ++ [v]) hlen
      rw [count_set_true visited v hvlt hvfalse.2] at this
      simp only [List.length_append, List.length_cons, List.length_nil] at this
      omega

/-! Correctness of the queue loop of Graph::bfs: starting from any state
satisfying the BFS invariants, the loop's result marks exactly the vertices
already marked or reachable through the pending queue; in particular the
final flag array is monotone over the initial one, sound for reachability
and closed under the adjacency relation. -/

theorem bfsLoop_spec (g : Graph) (s : Nat) (hWF : g.WF) :
    ∀ (fuel : Nat) (visited : List Bool) (q : List Nat),
      visited.length = g.vertexCount →
      g.vertexCount - visited.count true + q.length ≤ fuel →
      (∀ v ∈ q, visited.getD v false = true) →
      (∀ w, visited.getD w false = true → g.Reaches s w) →
      (∀ u, visited.getD u false = true →
        u ∈ q ∨ ∀ v ∈ g.adj u, visited.getD v false = true) →
      (bfsLoop g fuel visited q).length = g.vertexCount ∧
        (∀ w, visited.getD w false = true → (bfsLoop g fuel visited q).getD w false = true) ∧
        (∀ w, (bfsLoop g fuel visited q).getD w false = true → g.Reaches s w) ∧
        (∀ u, (bfsLoop g fuel visited q).getD u false = true →
          ∀ v ∈ g.adj u, (bfsLoop g fuel visited q).getD v false = true) := by
  intro fuel
  induction fuel with
  | zero =>
    intro visited q hlen hfuel hq hreach hcl
    have hq0 : q = [] := List.length_eq_zero.mp (by omega)
    subst hq0
    simp only [bfsLoop]
    refine ⟨hlen, fun w hw => hw, hreach, ?_⟩
    intro u hu v hv
    rcases hcl u hu with h | h
    · simp at h
    · exact h v hv
  | succ fuel ih =>
    intro visited q hlen hfuel hq hreach hcl
    cases q with
    | nil =>
      simp only [bfsLoop]
      refine ⟨hlen, fun w hw => hw, hreach, ?_⟩
      intro u hu v hv
      rcases hcl u hu with h | h
      · simp at h
      · exact h v hv
    | cons u rest =>
      simp only [bfsLoop]
      have hlAdj : ∀ v ∈ g.adj u, v < visited.length := by
        intro v hv
        rw [hlen]
        exact adj_lt g hWF u v hv
      have plen := bfsScan_length visited rest (g.adj u)
      have pvis := fun w => bfsScan_visited_iff visited rest (g.adj u) w hlAdj
      have pq := fun w => bfsScan_q_mem visited rest (g.adj u) w hlAdj
      have pct := bfsScan_count visited rest (g.adj u) hlAdj
      rcases bfsScan_append visited rest (g.adj u) with ⟨ext, hext⟩
      have hu_true : visited.getD u false = true := hq u (by simp)
      have hu_reach : g.Reaches s u := hreach u hu_true
      have hp1 : (bfsScan visited rest (g.adj u)).1.length = g.vertexCount := by
        rw [plen]
        exact hlen
      have hp2 : g.vertexCount - (bfsScan visited rest (g.adj u)).1.count true +
          (bfsScan visited rest (g.adj u)).2.length ≤ fuel := by
        have hctle := List.count_le_length true (bfsScan visited rest (g.adj u)).1
        rw [plen, hlen] at hctle
        have hlext : (bfsScan visited rest (g.adj u)).2.length =
            rest.length + ext.length := by
          rw [hext]
          simp
        simp only [List.length_cons] at hfuel
        omega
      have hp3 : ∀ v ∈ (bfsScan visited rest (g.adj u)).2,
          (bfsScan visited rest (g.adj u)).1.getD v false = true := by
        intro v hv
        rw [pq v] at hv
        rcases hv with hv | hv
        · exact (pvis v).mpr (Or.inl (hq v (by simp [hv])))
        · exact (pvis v).mpr (Or.inr hv.1)
      have hp4 : ∀ w, (bfsScan visited rest (g.adj u)).1.getD w false = true →
          g.Reaches s w := by
        intro w hw
        rcases (pvis w).mp hw with hw | hw
        · exact hreach w hw
        · exact Relation.ReflTransGen.tail hu_reach hw
      have hp5 : ∀ u', (bfsScan visited rest (g.adj u)).1.getD u' false = true →
          u' ∈ (bfsScan visited rest (g.adj u)).2 ∨
            ∀ v ∈ g.adj u', (bfsScan visited rest (g.adj u)).1.getD v false = true := by
        intro u' hu'
        by_cases hold : visited.getD u' false = true
        · rcases hcl u' hold with hmem | hclosed
          · rcases List.mem_cons.mp hmem with he | he
            · subst he
              right
              intro v hv
              exact (pvis v).mpr (Or.inr hv)
            · left
              rw [pq u']
              exact Or.inl he
          · right
            intro v hv
            exact (pvis v).mpr (Or.inl (hclosed v hv))
        · left
          rw [pq u']
          rcases (pvis u').mp hu' with h | h
          · exact absurd h hold
          · right
            refine ⟨h, ?_⟩
            simp only [Bool.not_eq_true] at hold
            exact hold
      have H := ih (bfsScan visited rest (g.adj u)).1 (bfsScan visited rest (g.adj u)).2
        hp1 hp2 hp3 hp4 hp5
      exact ⟨H.1, fun w hw => H.2.1 w ((pvis w).mpr (Or.inl hw)), H.2.2.1, H.2.2.2⟩

/-- Characterisation of Graph::bfs at a valid start vertex: the flag array
has one flag per vertex and marks exactly the vertices reachable from the
start. -/
theorem bfs_visited_iff (g : Graph) (startVertex : Int) (hWF : g.WF)
    (h0 : 0 ≤ startVertex) (hlt : startVertex < (g.vertexCount : Int)) :
    (g.bfs startVertex).length = g.vertexCount ∧
      ∀ w, ((g.bfs startVertex).getD w false = true ↔ g.Reaches startVertex.toNat w) := by
  have hs : startVertex.toNat < g.vertexCount := by omega
  have hn1 : 1 ≤ g.vertexCount := by omega
  unfold Graph.bfs
  rw [if_neg (by push_neg; exact ⟨h0, hlt⟩)]
  have hinitlen : ((List.replicate g.vertexCount false).set startVertex.toNat true).length
      = g.vertexCount := by
    simp
  have hinit := fun w => initVisited_getD g.vertexCount startVertex.toNat w hs
  have hspec := bfsLoop_spec g startVertex.toNat hWF g.vertexCount
    ((List.replicate g.vertexCount false).set startVertex.toNat true) [startVertex.toNat]
    hinitlen
    (by
      rw [count_init_visited g.vertexCount startVertex.toNat hs]
      simp only [List.length_cons, List.length_nil]
      omega)
    (by
      intro v hv
      have hve : v = startVertex.toNat := by simpa using hv
      rw [hve]
      exact (hinit _).mpr rfl)
    (by
      intro w hw
      rw [hinit w] at hw
      subst hw
      exact Relation.ReflTransGen.refl)
    (by
      intro u hu
      rw [hinit u] at hu
      subst hu
      left
      simp)
  refine ⟨hspec.1, ?_⟩
  intro w
  constructor
  · exact hspec.2.2.1 w
  · intro hreach
    exact reaches_of_closed g startVertex.toNat
      (fun x => (bfsLoop g g.vertexCount
        ((List.replicate g.vertexCount false).set startVertex.toNat true)
        [startVertex.toNat]).getD x false = true)
      (hspec.2.1 startVertex.toNat ((hinit startVertex.toNat).mpr rfl))
      hspec.2.2.2 w hreach

/-! Invariants of parallel BFS executions. -/

theorem parRun_spec (g : Graph) (s : Nat) (hWF : g.WF)
    {visited : List Bool} {frontier log : List Nat} {final : List Bool}
    (hrun : ParRun g visited frontier log final) :
    visited.length = g.vertexCount →
    (∀ v ∈ frontier, visited.getD v false = true) →
    (∀ w, visited.getD w false = true → g.Reaches s w) →
    (∀ u, visited.getD u false = true →
      u ∈ frontier ∨ ∀ v ∈ g.adj u, visited.getD v false = true) →
    final.length = g.vertexCount ∧
      (∀ w, visited.getD w false = true → final.getD w false = true) ∧
      (∀ w, final.getD w false = true → g.Reaches s w) ∧
      (∀ u, final.getD u false = true → ∀ v ∈ g.adj u, final.getD v false = true) := by
  induction hrun with
  | nil visited =>
    intro hlen hfr hreach hcl
    refine ⟨hlen, fun w hw => hw, hreach, ?_⟩
    intro u hu v hv
    rcases hcl u hu with h | h
    · simp at h
    · exact h v hv
  | step visited frontier order log final hperm hrest ih =>
    intro hlen hfr hreach hcl
    have hlOrder : ∀ v ∈ order, v < visited.length := by
      intro v hv
      have hvf : v ∈ frontier.flatMap g.adj := hperm.mem_iff.mp hv
      rcases List.mem_flatMap.mp hvf with ⟨u, _, hvu⟩
      rw [hlen]
      exact adj_lt g hWF u v hvu
    have cfvis := fun w => casFold_visited_iff visited order w hlOrder
    have cfmem := fun w => casFold_claimed_mem visited order w hlOrder
    have hp1 : (casFold visited order).1.length = g.vertexCount := by
      rw [casFold_length]
      exact hlen
    have hp2 : ∀ v ∈ (casFold visited order).2,
        (casFold visited order).1.getD v false = true :=
      fun v hv => casFold_claimed_flag visited order v hv
    have hp3 : ∀ w, (casFold visited order).1.getD w false = true → g.Reaches s w := by
      intro w hw
      rcases (cfvis w).mp hw with hw | hw
      · exact hreach w hw
      · rcases List.mem_flatMap.mp (hperm.mem_iff.mp hw) with ⟨u, hu, hwu⟩
        exact Relation.ReflTransGen.tail (hreach u (hfr u hu)) hwu
    have hp4 : ∀ u, (casFold visited order).1.getD u false = true →
        u ∈ (casFold visited order).2 ∨
          ∀ v ∈ g.adj u, (casFold visited order).1.getD v false = true := by
      intro u hu
      by_cases hold : visited.getD u false = true
      · rcases hcl u hold with hmem | hclosed
        · right
          intro v hv
          refine (cfvis v).mpr (Or.inr ?_)
          exact hperm.mem_iff.mpr (List.mem_flatMap.mpr ⟨u, hmem, hv⟩)
        · right
          intro v hv
          exact (cfvis v).mpr (Or.inl (hclosed v hv))
      · left
        rcases (cfvis u).mp hu with h | h
        · exact absurd h hold
        · refine (cfmem u).mpr ⟨h, ?_⟩
          simp only [Bool.not_eq_true] at hold
          exact hold
    have H := ih hp1 hp2 hp3 hp4
    exact ⟨H.1, fun w hw => H.2.1 w (casFold_monotone visited order w hw), H.2.2.1, H.2.2.2⟩

/-- The claim log of a parallel BFS execution: no vertex is claimed twice,
every claimed vertex was unvisited at the start of the run and is visited at
its end, and flags never revert from true to false. -/
theorem parRun_log_spec (g : Graph)
    {visited : List Bool} {frontier log : List Nat} {final : List Bool}
    (hrun : ParRun g visited frontier log final) :
    (∀ w, visited.getD w false = true → final.getD w false = true) ∧
      log.Nodup ∧
      ∀ w ∈ log, visited.getD w false = false ∧ final.getD w false = true := by
  induction hrun with
  | nil visited => exact ⟨fun w hw => hw, List.nodup_nil, by simp⟩
  | step visited frontier order log final hperm hrest ih =>
    have hmono : ∀ w, visited.getD w false = true →
        (casFold visited order).1.getD w false = true :=
      fun w hw => casFold_monotone visited order w hw
    refine ⟨fun w hw => ih.1 w (hmono w hw), ?_, ?_⟩
    · refine List.Nodup.append (casFold_claimed_nodup visited order) ih.2.1 ?_
      intro w hwc hwl
      have h1 := casFold_claimed_flag visited order w hwc
      have h2 := (ih.2.2 w hwl).1
      rw [h1] at h2
      simp at h2
    · intro w hw
      rcases List.mem_append.mp hw with hw | hw
      · refine ⟨(casFold_claimed_sub visited order w hw).2.2, ?_⟩
        exact ih.1 w (casFold_claimed_flag visited order w hw)
      · have h2 := ih.2.2 w hw
        refine ⟨?_, h2.2⟩
        cases hb : visited.getD w false with
        | false => rfl
        | true =>
          have := hmono w hb
          rw [this] at h2
          exact absurd h2.1 (by simp)

/-- Characterisation of any parallel BFS execution from a valid start
vertex: the final flags mark exactly the reachable vertices. -/
theorem parRun_visited_iff (g : Graph) (startVertex : Int) (hWF : g.WF)
    (h0 : 0 ≤ startVertex) (hlt : startVertex < (g.vertexCount : Int))
    {log : List Nat} {final : List Bool}
    (hrun : ParRun g ((List.replicate g.vertexCount false).set startVertex.toNat true)
      [startVertex.toNat] log final) :
    final.length = g.vertexCount ∧
      ∀ w, (final.getD w false = true ↔ g.Reaches startVertex.toNat w) := by
  have hs : startVertex.toNat < g.vertexCount := by omega
  have hinit := fun w => initVisited_getD g.vertexCount startVertex.toNat w hs
  have hspec := parRun_spec g startVertex.toNat hWF hrun
    (by simp)
    (by
      intro v hv
      have hve : v = startVertex.toNat := by simpa using hv
      rw [hve]
      exact (hinit _).mpr rfl)
    (by
      intro w hw
      rw [hinit w] at hw
      subst hw
      exact Relation.ReflTransGen.refl)
    (by
      intro u hu
      rw [hinit u] at hu
      subst hu
      left
      simp)
  refine ⟨hspec.1, ?_⟩
  intro w
  constructor
  · exact hspec.2.2.1 w
  · intro hreach
    exact reaches_of_closed g startVertex.toNat
      (fun x => final.getD x false = true)
      (hspec.2.1 startVertex.toNat ((hinit startVertex.toNat).mpr rfl))
      hspec.2.2.2 w hreach

/-- C1: for every well-formed graph and every valid start vertex
(0 ≤ start < vertex count), any execution of Graph::parallelBFS — any
interleaving of the CAS operations of each level — ends with exactly the
visited flags computed by the sequential reference traversal Graph::bfs:
the visited sets coincide. -/
theorem parallelBFS_visited_eq_bfs (g : Graph) (startVertex : Int)
    (log : List Nat) (final : List Bool) (hWF : g.WF)
    (h0 : 0 ≤ startVertex) (hlt : startVertex < (g.vertexCount : Int))
    (hrun : ParRun g ((List.replicate g.vertexCount false).set startVertex.toNat true)
      [startVertex.toNat] log final) :
    final = g.bfs startVertex := by
  have hp := parRun_visited_iff g startVertex hWF h0 hlt hrun
  have hb := bfs_visited_iff g startVertex hWF h0 hlt
  apply List.ext_getElem (by rw [hp.1, hb.1])
  intro i h1 h2
  have hiff : final.getD i false = true ↔ (g.bfs startVertex).getD i false = true :=
    (hp.2 i).trans (hb.2 i).symm
  have heq : final.getD i false = (g.bfs startVertex).getD i false := by
    cases hA : final.getD i false with
    | true => exact (hiff.mp hA).symm
    | false =>
      cases hB : (g.bfs startVertex).getD i false with
      | false => rfl
      | true =>
        rw [hiff.mpr hB] at hA
        simp at hA
  rw [← List.getD_eq_getElem final false h1,
    ← List.getD_eq_getElem (g.bfs startVertex) false h2]
  exact heq

theorem parallelBFS_visited_eq_bfs_witness :
    ([true, true] : List Bool) = (Graph.mk 2 [[1], []]).bfs 0 :=
  parallelBFS_visited_eq_bfs (Graph.mk 2 [[1], []]) 0 [1] [true, true]
    (by constructor <;> decide)
    (by decide) (by decide)
    (ParRun.step [true, false] [0] [1] [] [true, true] (List.Perm.refl [1])
      (ParRun.step [true, true] [1] [] [] [true, true] (List.Perm.refl [])
        (ParRun.nil [true, true])))

/-- C2: along any execution of Graph::parallelBFS, a visited flag never
reverts from true to false, and each vertex is claimed by a successful CAS
(hence appended to a next-frontier candidate list) at most once across all
levels and all chunk tasks: the claim log has no duplicates, every logged
vertex was unvisited before and is visited after. -/
theorem parallelBFS_marks_once (g : Graph) (visited : List Bool)
    (frontier log : List Nat) (final : List Bool) (w u : Nat)
    (hrun : ParRun g visited frontier log final)
    (hw : w ∈ log) (hu : visited.getD u false = true) :
    log.Nodup ∧ visited.getD w false = false ∧ final.getD w false = true ∧
      final.getD u false = true := by
  have H := parRun_log_spec g hrun
  exact ⟨H.2.1, (H.2.2 w hw).1, (H.2.2 w hw).2, H.1 u hu⟩

theorem parallelBFS_marks_once_witness :
    ([1] : List Nat).Nodup ∧ ([true, false] : List Bool).getD 1 false = false ∧
      ([true, true] : List Bool).getD 1 false = true ∧
      ([true, true] : List Bool).getD 0 false = true :=
  parallelBFS_marks_once (Graph.mk 2 [[1], []]) [true, false] [0] [1] [true, true] 1 0
    (ParRun.step [true, false] [0] [1] [] [true, true] (List.Perm.refl [1])
      (ParRun.step [true, true] [1] [] [] [true, true] (List.Perm.refl [])
        (ParRun.nil [true, true])))
    (by decide) (by decide)

/-- C6: an out-of-range start vertex (negative or at least the vertex count)
makes Graph::parallelBFS return immediately: no vertex is ever marked
visited and no traversal work is performed. -/
theorem parallelBFS_invalid_noop (g : Graph) (threadCount : Nat) (startVertex : Int)
    (h : startVertex < 0 ∨ (g.vertexCount : Int) ≤ startVertex) :
    g.parallelBFSMarks threadCount startVertex = [] := by
  unfold Graph.parallelBFSMarks
  rw [if_pos h]

theorem parallelBFS_invalid_noop_witness :
    (Graph.mk 2 [[1], []]).parallelBFSMarks 4 (-1) = [] ∧
      (Graph.mk 2 [[1], []]).parallelBFSMarks 4 2 = [] :=
  ⟨parallelBFS_invalid_noop (Graph.mk 2 [[1], []]) 4 (-1) (by decide),
    parallelBFS_invalid_noop (Graph.mk 2 [[1], []]) 4 2 (by decide)⟩

/-! Properties of the per-level chunk partition. -/

theorem chunksOf_ne_nil (cs fuel : Nat) (l : List Nat) (h : l ≠ []) :
    chunksOf cs fuel l ≠ [] := by
  cases l with
  | nil => exact absurd rfl h
  | cons a t =>
    cases fuel with
    | zero => simp [chunksOf]
    | succ f => simp [chunksOf]

theorem chunksOf_join (cs : Nat) (hcs : 0 < cs) :
    ∀ (fuel : Nat) (l : List Nat), l.length ≤ fuel →
      (chunksOf cs fuel l).flatten = l := by
  intro fuel
  induction fuel with
  | zero =>
    intro l hl
    have hle : l = [] := List.length_eq_zero.mp (by omega)
    subst hle
    simp [chunksOf]
  | succ f ih =>
    intro l hl
    cases l with
    | nil => simp [chunksOf]
    | cons a t =>
      simp only [chunksOf, List.flatten_cons]
      rw [ih ((a :: t).drop cs) (by
        rw [List.length_drop]
        simp only [List.length_cons] at hl ⊢
        omega)]
      exact List.take_append_drop cs (a :: t)

theorem chunksOf_count (cs : Nat) (hcs : 0 < cs) :
    ∀ (fuel : Nat) (l : List Nat), l.length ≤ fuel →
      (chunksOf cs fuel l).length = (l.length + cs - 1) / cs := by
  intro fuel
  induction fuel with
  | zero =>
    intro l hl
    have hle : l = [] := List.length_eq_zero.mp (by omega)
    subst hle
    simp only [chunksOf, List.length_nil]
    rw [Nat.div_eq_of_lt (by omega)]
  | succ f ih =>
    intro l hl
    cases l with
    | nil =>
      simp only [chunksOf, List.length_nil]
      rw [Nat.div_eq_of_lt (by omega)]
    | cons a t =>
      simp only [chunksOf, List.length_cons]
      rw [ih ((a :: t).drop cs) (by
        rw [List.length_drop]
        simp only [List.length_cons] at hl ⊢
        omega)]
      rw [List.length_drop]
      simp only [List.length_cons]
      have hrhs : t.length + 1 + cs - 1 = (t.length + 1 - 1) + cs := by omega
      rw [hrhs, Nat.add_div_right _ hcs]
      rcases Nat.le_total cs (t.length + 1) with hle | hle
      · have hnum : t.length + 1 - cs + cs - 1 = t.length + 1 - 1 := by omega
        rw [hnum]
      · have hnum : t.length + 1 - cs + cs - 1 = cs - 1 := by omega
        rw [hnum, Nat.div_eq_of_lt (show cs - 1 < cs by omega),
          Nat.div_eq_of_lt (show t.length + 1 - 1 < cs by omega)]

theorem chunksOf_shapes (cs : Nat) (hcs : 0 < cs) :
    ∀ (fuel : Nat) (l : List Nat), l.length ≤ fuel →
      (∀ c ∈ chunksOf cs fuel l, c ≠ [] ∧ c.length ≤ cs) ∧
        ∀ c ∈ (chunksOf cs fuel l).dropLast, c.length = cs := by
  intro fuel
  induction fuel with
  | zero =>
    intro l hl
    have hle : l = [] := List.length_eq_zero.mp (by omega)
    subst hle
    simp [chunksOf]
  | succ f ih =>
    intro l hl
    cases l with
    | nil => simp [chunksOf]
    | cons a t =>
      have hdl : ((a :: t).drop cs).length ≤ f := by
        rw [List.length_drop]
        simp only [List.length_cons] at hl ⊢
        omega
      have IH := ih ((a :: t).drop cs) hdl
      constructor
      · intro c hc
        simp only [chunksOf] at hc
        rcases List.mem_cons.mp hc with hc | hc
        · subst hc
          constructor
          · cases cs with
            | zero => omega
            | succ k => simp
          · rw [List.length_take]
            omega
        · exact IH.1 c hc
      · intro c hc
        simp only [chunksOf] at hc
        by_cases hd : (a :: t).drop cs = []
        · rw [hd] at hc
          simp [chunksOf] at hc
        · rw [List.dropLast_cons_of_ne_nil (chunksOf_ne_nil cs f _ hd)] at hc
          rcases List.mem_cons.mp hc with hc | hc
          · subst hc
            rw [List.length_take]
            have hlt : cs < (a :: t).length := by
              by_contra hnn
              exact hd (List.drop_eq_nil_of_le (by omega))
            omega
          · exact IH.2 c hc

/-- C9: for a non-empty frontier of length L and worker count W ≥ 1, a level
of Graph::parallelBFS computes chunkSize = (L + W - 1) / W, which is the
ceiling of L / W (characterised by L ≤ W * chunkSize < L + W); it partitions
the frontier into contiguous non-empty chunks of that size, only the last
chunk possibly smaller; and the WaitGroup initial count 1 + (L - 1) /
chunkSize equals the number of chunks. -/
theorem level_partition (threadCount : Nat) (frontier : List Nat)
    (hW : 1 ≤ threadCount) (hne : frontier ≠ []) :
    frontier.length ≤ threadCount * chunkSize frontier.length threadCount ∧
      threadCount * chunkSize frontier.length threadCount <
        frontier.length + threadCount ∧
      (levelChunks threadCount frontier).flatten = frontier ∧
      (∀ c ∈ levelChunks threadCount frontier,
        c ≠ [] ∧ c.length ≤ chunkSize frontier.length threadCount) ∧
      (∀ c ∈ (levelChunks threadCount frontier).dropLast,
        c.length = chunkSize frontier.length threadCount) ∧
      (levelChunks threadCount frontier).length =
        wgCount frontier.length (chunkSize frontier.length threadCount) := by
  have hL : 1 ≤ frontier.length := by
    cases frontier with
    | nil => exact absurd rfl hne
    | cons a t => simp
  have hcs : 0 < chunkSize frontier.length threadCount := by
    unfold chunkSize
    exact (Nat.one_le_div_iff (by omega)).mpr (by omega)
  have hdm := Nat.div_add_mod (frontier.length + threadCount - 1) threadCount
  have hmod : (frontier.length + threadCount - 1) % threadCount < threadCount :=
    Nat.mod_lt _ (by omega)
  rw [show (frontier.length + threadCount - 1) / threadCount =
    chunkSize frontier.length threadCount from rfl] at hdm
  obtain ⟨p, hp⟩ : ∃ p, threadCount * chunkSize frontier.length threadCount = p :=
    ⟨_, rfl⟩
  obtain ⟨m, hm⟩ : ∃ m, (frontier.length + threadCount - 1) % threadCount = m :=
    ⟨_, rfl⟩
  rw [hp, hm] at hdm
  rw [hm] at hmod
  refine ⟨by rw [hp]; omega, by rw [hp]; omega, ?_, ?_, ?_, ?_⟩
  · exact chunksOf_join _ hcs _ frontier (Nat.le_refl _)
  · exact (chunksOf_shapes _ hcs _ frontier (Nat.le_refl _)).1
  · exact (chunksOf_shapes _ hcs _ frontier (Nat.le_refl _)).2
  · unfold levelChunks
    rw [chunksOf_count _ hcs _ frontier (Nat.le_refl _)]
    unfold wgCount
    have he : frontier.length + chunkSize frontier.length threadCount - 1 =
        (frontier.length - 1) + chunkSize frontier.length threadCount := by omega
    rw [he, Nat.add_div_right _ hcs]
    omega

theorem level_partition_witness :
    ([5, 6, 7] : List Nat).length ≤ 2 * chunkSize ([5, 6, 7] : List Nat).length 2 ∧
      2 * chunkSize ([5, 6, 7] : List Nat).length 2 < ([5, 6, 7] : List Nat).length + 2 ∧
      (levelChunks 2 [5, 6, 7]).flatten = [5, 6, 7] ∧
      (∀ c ∈ levelChunks 2 [5, 6, 7],
        c ≠ [] ∧ c.length ≤ chunkSize ([5, 6, 7] : List Nat).length 2) ∧
      (∀ c ∈ (levelChunks 2 [5, 6, 7]).dropLast,
        c.length = chunkSize ([5, 6, 7] : List Nat).length 2) ∧
      (levelChunks 2 [5, 6, 7]).length =
        wgCount ([5, 6, 7] : List Nat).length (chunkSize ([5, 6, 7] : List Nat).length 2) :=
  level_partition 2 [5, 6, 7] (by decide) (by decide)

/-! Queue lemmas. -/

theorem popAll_stopped {α : Type} (l : List α) :
    popAll l.length ⟨QState.stopped, l⟩ = (l, ⟨QState.stopped, []⟩) := by
  induction l with
  | nil => rfl
  | cons x xs ih =>
    have hpop : Pop (⟨QState.stopped, x :: xs⟩ : BQueue α) =
        (some x, ⟨QState.stopped, xs⟩) := by
      simp [Pop]
    simp only [List.length_cons, popAll, hpop]
    rw [ih]

theorem emplace_state {α : Type} (q : BQueue α) (v : α) :
    (Emplace q v).2.state = q.state := by
  unfold Emplace
  by_cases h : q.state = QState.running
  · rw [if_pos h]
  · rw [if_neg h]

theorem emplace_spec {α : Type} (q : BQueue α) (v : α) :
    ((Emplace q v).1 = true ↔ q.state = QState.running) ∧
      (Emplace q v).2.items =
        (if q.state = QState.running then q.items ++ [v] else q.items) := by
  unfold Emplace
  by_cases h : q.state = QState.running
  · rw [if_pos h, if_pos h]
    exact ⟨⟨fun _ => h, fun _ => rfl⟩, rfl⟩
  · rw [if_neg h, if_neg h]
    exact ⟨by simp [h], rfl⟩

theorem pop_state {α : Type} (q : BQueue α) : (Pop q).2.state = q.state := by
  unfold Pop
  by_cases h : q.state = QState.forceStopped
  · rw [if_pos h]
  · rw [if_neg h]
    cases hq : q.items with
    | nil => rfl
    | cons x xs => rfl

theorem pop_items_sub {α : Type} (q : BQueue α) (w : α)
    (h : w ∈ (Pop q).2.items) : w ∈ q.items := by
  obtain ⟨s, items⟩ := q
  unfold Pop at h
  simp only at h ⊢
  by_cases hf : s = QState.forceStopped
  · rw [if_pos hf] at h
    exact h
  · rw [if_neg hf] at h
    cases items with
    | nil => exact h
    | cons x xs =>
      simp only at h
      exact List.mem_cons_of_mem x h

theorem pop_some_mem {α : Type} (q : BQueue α) (x : α)
    (h : (Pop q).1 = some x) : x ∈ q.items := by
  obtain ⟨s, items⟩ := q
  unfold Pop at h
  simp only at h ⊢
  by_cases hf : s = QState.forceStopped
  · rw [if_pos hf] at h
    simp at h
  · rw [if_neg hf] at h
    cases items with
    | nil => simp at h
    | cons y ys =>
      simp only at h
      have hyx : y = x := by simpa using h
      simp [hyx]

theorem runOps_outputs {α : Type} :
    ∀ (ops : List (QOp α)) (q : BQueue α) (w : α),
      w ∈ (runOps ops q).2.1 → w ∈ q.items ∨ w ∈ (runOps ops q).2.2 := by
  intro ops
  induction ops with
  | nil =>
    intro q w hw
    simp [runOps] at hw
  | cons op rest ih =>
    intro q w hw
    cases op with
    | push v =>
      simp only [runOps] at hw ⊢
      rcases ih (Emplace q v).2 w hw with h | h
      · rw [(emplace_spec q v).2] at h
        by_cases hr : q.state = QState.running
        · rw [if_pos hr] at h
          rcases List.mem_append.mp h with h | h
          · exact Or.inl h
          · have hwv : w = v := by simpa using h
            right
            rw [(emplace_spec q v).1.mpr hr]
            simp [hwv]
        · rw [if_neg hr] at h
          exact Or.inl h
      · right
        by_cases he : (Emplace q v).1 = true
        · rw [he]
          simp [h]
        · simp only [Bool.not_eq_true] at he
          rw [he]
          simpa using h
    | pop =>
      simp only [runOps] at hw ⊢
      cases hp : (Pop q).1 with
      | some x =>
        rw [hp] at hw
        simp only at hw
        rcases List.mem_cons.mp hw with he | he
        · subst he
          exact Or.inl (pop_some_mem q w hp)
        · rcases ih (Pop q).2 w he with h | h
          · exact Or.inl (pop_items_sub q w h)
          · exact Or.inr h
      | none =>
        rw [hp] at hw
        simp only at hw
        rcases ih (Pop q).2 w hw with h | h
        · exact Or.inl (pop_items_sub q w h)
        · exact Or.inr h
    | stop s =>
      simp only [runOps] at hw ⊢
      rcases ih (Stop q s) w hw with h | h
      · exact Or.inl h
      · exact Or.inr h

/-- C3: once its wait condition lets it proceed, UnboundedBlockingQueue::Pop
returns the front item in FIFO order when the state is not FORCE_STOPPED and
an item is present; it returns empty under FORCE_STOPPED regardless of the
pending items; and after Stop(STOPPED) the already-enqueued items are popped
in order until the queue is drained, after which Pop returns empty. -/
theorem pop_contract {α : Type} (q : BQueue α) (x : α) (xs : List α)
    (h1 : q.state ≠ QState.forceStopped) (h2 : q.items = x :: xs) :
    popReady q ∧
      Pop q = (some x, ⟨q.state, xs⟩) ∧
      (Pop (⟨QState.forceStopped, q.items⟩ : BQueue α)).1 = none ∧
      popAll q.items.length (Stop q QState.stopped) = (q.items, ⟨QState.stopped, []⟩) ∧
      (Pop (⟨QState.stopped, ([] : List α)⟩ : BQueue α)).1 = none := by
  refine ⟨Or.inr (by rw [h2]; simp), ?_, by simp [Pop], ?_, by simp [Pop]⟩
  · unfold Pop
    rw [if_neg h1, h2]
  · show popAll q.items.length ⟨QState.stopped, q.items⟩ = (q.items, ⟨QState.stopped, []⟩)
    exact popAll_stopped q.items

theorem pop_contract_witness :
    popReady (⟨QState.running, [1, 2]⟩ : BQueue Nat) ∧
      Pop (⟨QState.running, [1, 2]⟩ : BQueue Nat) = (some 1, ⟨QState.running, [2]⟩) ∧
      (Pop (⟨QState.forceStopped, ([1, 2] : List Nat)⟩ : BQueue Nat)).1 = none ∧
      popAll 2 (Stop (⟨QState.running, [1, 2]⟩ : BQueue Nat) QState.stopped) =
        ([1, 2], ⟨QState.stopped, []⟩) ∧
      (Pop (⟨QState.stopped, ([] : List Nat)⟩ : BQueue Nat)).1 = none :=
  pop_contract ⟨QState.running, [1, 2]⟩ 1 [2] (by decide) (by decide)

/-- C4: UnboundedBlockingQueue::Push delegates to Emplace, which enqueues the
value at the back and returns true exactly when the state is RUNNING;
otherwise it returns false and leaves the queue unchanged, and a value that
is never successfully pushed and was never enqueued is never returned by any
later Pop (so it is never executed by a worker). -/
theorem push_contract {α : Type} (q : BQueue α) (v : α) (ops : List (QOp α)) (w : α)
    (hw : w ∈ (runOps ops q).2.1) :
    Push q v = Emplace q v ∧
      ((Emplace q v).1 = true ↔ q.state = QState.running) ∧
      (Emplace q v).2.state = q.state ∧
      (Emplace q v).2.items =
        (if q.state = QState.running then q.items ++ [v] else q.items) ∧
      (w ∈ q.items ∨ w ∈ (runOps ops q).2.2) :=
  ⟨rfl, (emplace_spec q v).1, emplace_state q v, (emplace_spec q v).2,
    runOps_outputs ops q w hw⟩

theorem push_contract_witness :
    Push (⟨QState.stopped, [7]⟩ : BQueue Nat) 5 = Emplace ⟨QState.stopped, [7]⟩ 5 ∧
      ((Emplace (⟨QState.stopped, [7]⟩ : BQueue Nat) 5).1 = true ↔
        (⟨QState.stopped, ([7] : List Nat)⟩ : BQueue Nat).state = QState.running) ∧
      (Emplace (⟨QState.stopped, [7]⟩ : BQueue Nat) 5).2.state =
        (⟨QState.stopped, ([7] : List Nat)⟩ : BQueue Nat).state ∧
      (Emplace (⟨QState.stopped, [7]⟩ : BQueue Nat) 5).2.items =
        (if (⟨QState.stopped, ([7] : List Nat)⟩ : BQueue Nat).state = QState.running
          then [7] ++ [5] else [7]) ∧
      (7 ∈ ([7] : List Nat) ∨
        7 ∈ (runOps [QOp.pop] (⟨QState.stopped, [7]⟩ : BQueue Nat)).2.2) :=
  push_contract ⟨QState.stopped, [7]⟩ 5 [QOp.pop] 7 (by decide)

/-- C7 counterexample: the queue state is not one-directional over all
operation sequences the code admits: Stop accepts the RUNNING argument, and
applying it to a STOPPED queue moves the state back to RUNNING. -/
theorem stop_running_reverts :
    (⟨QState.stopped, ([] : List Nat)⟩ : BQueue Nat).state ≠ QState.running ∧
      (runOps [QOp.stop QState.running] (⟨QState.stopped, []⟩ : BQueue Nat)).1.state =
        QState.running := by
  constructor
  · decide
  · rfl

/-- C7 (amended): provided Stop is only invoked with the STOPPED or
FORCE_STOPPED argument — as the specified Stop contract prescribes — the
state transitions are one-directional: Push and Pop never change the state,
and once the state is non-RUNNING it never returns to RUNNING under any
operation sequence. -/
theorem states_one_directional {α : Type} (ops : List (QOp α)) (q : BQueue α)
    (hops : stopsNonRunning ops = true) (hq : q.state ≠ QState.running) :
    (runOps ops q).1.state ≠ QState.running := by
  induction ops generalizing q with
  | nil => exact hq
  | cons op rest ih =>
    cases op with
    | push v =>
      simp only [runOps]
      exact ih (Emplace q v).2 (by simpa [stopsNonRunning] using hops)
        (by rw [emplace_state]; exact hq)
    | pop =>
      simp only [runOps]
      exact ih (Pop q).2 (by simpa [stopsNonRunning] using hops)
        (by rw [pop_state]; exact hq)
    | stop s =>
      simp only [runOps]
      cases s with
      | running => simp [stopsNonRunning] at hops
      | stopped =>
        exact ih (Stop q QState.stopped) (by simpa [stopsNonRunning] using hops)
          (by simp [Stop])
      | forceStopped =>
        exact ih (Stop q QState.forceStopped) (by simpa [stopsNonRunning] using hops)
          (by simp [Stop])

theorem states_one_directional_witness :
    (runOps [QOp.push 3, QOp.stop QState.forceStopped, QOp.pop]
      (⟨QState.stopped, [1]⟩ : BQueue Nat)).1.state ≠ QState.running :=
  states_one_directional [QOp.push 3, QOp.stop QState.forceStopped, QOp.pop]
    ⟨QState.stopped, [1]⟩ (by decide) (by decide)

/-! WaitGroup lemmas. -/

theorem wgRun_eq (w : Nat) :
    ∀ (evs : List WGEvent) (n : Nat),
      n + addsSum evs < 2 ^ w →
      (∀ i, i ≤ evs.length → donesCount (evs.take i) ≤ n + addsSum (evs.take i)) →
      wgRun w n evs = n + addsSum evs - donesCount evs := by
  intro evs
  induction evs with
  | nil =>
    intro n hb hp
    simp only [addsSum, donesCount] at *
    simp only [wgRun, List.foldl_nil]
    rw [Nat.mod_eq_of_lt (by omega)]
    omega
  | cons e t ih =>
    intro n hb hp
    cases e with
    | add k =>
      have hstep : wgRun w n (WGEvent.add k :: t) = wgRun w (n + k) t := by
        simp only [wgRun, List.foldl_cons, wgStep, wgAdd]
        rw [Nat.mod_add_mod]
      rw [hstep]
      have hb2 : n + k + addsSum t < 2 ^ w := by
        simp only [addsSum] at hb
        omega
      have hp2 : ∀ i, i ≤ t.length →
          donesCount (t.take i) ≤ n + k + addsSum (t.take i) := by
        intro i hi
        have := hp (i + 1) (by simp only [List.length_cons]; omega)
        simp only [List.take_succ_cons, donesCount, addsSum] at this
        omega
      rw [ih (n + k) hb2 hp2]
      simp only [addsSum, donesCount]
      omega
    | done =>
      have hn1 : 1 ≤ n := by
        have := hp 1 (by simp only [List.length_cons]; omega)
        simp only [List.take_succ_cons, List.take_zero, donesCount, addsSum] at this
        omega
      have hM : 0 < 2 ^ w := Nat.two_pow_pos w
      have hnM : n < 2 ^ w := by
        simp only [addsSum] at hb
        omega
      have hinit : wgDone w (n % 2 ^ w) = (n - 1) % 2 ^ w := by
        unfold wgDone
        rw [Nat.mod_eq_of_lt hnM]
        have he : n + (2 ^ w - 1) = (n - 1) + 2 ^ w := by omega
        rw [he, Nat.add_mod_right]
      have hstep : wgRun w n (WGEvent.done :: t) = wgRun w (n - 1) t := by
        simp only [wgRun, List.foldl_cons, wgStep]
        rw [hinit]
      rw [hstep]
      have hb2 : n - 1 + addsSum t < 2 ^ w := by
        simp only [addsSum] at hb
        omega
      have hp2 : ∀ i, i ≤ t.length →
          donesCount (t.take i) ≤ n - 1 + addsSum (t.take i) := by
        intro i hi
        have := hp (i + 1) (by simp only [List.length_cons]; omega)
        simp only [List.take_succ_cons, donesCount, addsSum] at this
        omega
      rw [ih (n - 1) hb2 hp2]
      simp only [addsSum, donesCount]
      omega

/-- C5: over any WaitGroup history whose prefixes never call Done more times
than the initial count plus the Adds registered so far (the documented caller
contract), and which stays below the counter's word bound, the condition that
lets Wait return — counter equal to zero — holds exactly when the number of
Done calls equals the initial count plus the sum of all Add amounts; in
particular a Wait issued while Done calls are still missing does not return
prematurely. -/
theorem wait_returns_iff (w n : Nat) (evs : List WGEvent)
    (hb : n + addsSum evs < 2 ^ w)
    (hp : ∀ i, i ≤ evs.length → donesCount (evs.take i) ≤ n + addsSum (evs.take i)) :
    wgWaitReturns w n evs ↔ donesCount evs = n + addsSum evs := by
  unfold wgWaitReturns
  rw [wgRun_eq w evs n hb hp]
  have := hp evs.length (Nat.le_refl _)
  rw [List.take_length] at this
  omega

theorem wait_returns_iff_witness :
    wgWaitReturns 8 1 [WGEvent.done] ↔
      donesCount [WGEvent.done] = 1 + addsSum [WGEvent.done] :=
  wait_returns_iff 8 1 [WGEvent.done] (by decide) (by decide)

/-- C10: calling WaitGroup::Done when the counter is already 0 wraps the
w-bit size_t counter around to 2 ^ w - 1 instead of saturating or reporting
a violation, so after such an extra Done the counter is non-zero and the
counter-is-zero condition checked by Wait does not hold. -/
theorem done_underflow_wraps (w : Nat) (hw : 1 ≤ w) :
    wgDone w 0 = 2 ^ w - 1 ∧ wgDone w 0 ≠ 0 := by
  have hM : 0 < 2 ^ w := Nat.two_pow_pos w
  have h2 : 2 ≤ 2 ^ w := by
    calc 2 = 2 ^ 1 := by norm_num
    _ ≤ 2 ^ w := Nat.pow_le_pow_right (by norm_num) hw
  constructor
  · unfold wgDone
    rw [Nat.mod_eq_of_lt (by omega)]
    omega
  · unfold wgDone
    rw [Nat.mod_eq_of_lt (by omega)]
    omega

theorem done_underflow_wraps_witness :
    wgDone 64 0 = 2 ^ 64 - 1 ∧ wgDone 64 0 ≠ 0 :=
  done_underflow_wraps 64 (by decide)

/-- C8 counterexample: ThreadPool::ThreadPool(0) creates no worker thread at
all — the constructor's loop body runs zero times — so the pool does not
degrade to at least one worker when configured with count 0. -/
theorem pool_zero_workers :
    (mkWorkers 0).length = 0 ∧ ¬1 ≤ (mkWorkers 0).length := by
  decide

/-- C8 (amended): the pool runs with exactly the configured worker count —
a count of 0 yields a pool with no workers — and a TP_SIZE environment value
that is unset or non-positive falls back to the hardware_concurrency value
(positive only when the host reports positive hardware parallelism). -/
theorem pool_worker_count (n hardware : Nat) (v : Int) (hv : v ≤ 0) :
    (mkWorkers n).length = n ∧
      threadCountOf none hardware = hardware ∧
      threadCountOf (some v) hardware = hardware := by
  refine ⟨List.length_range n, rfl, ?_⟩
  show (if 0 < v then v.toNat else hardware) = hardware
  rw [if_neg (by omega)]

theorem pool_worker_count_witness :
    (mkWorkers 0).length = 0 ∧
      threadCountOf none 8 = 8 ∧
      threadCountOf (some (-3)) 8 = 8 :=
  pool_worker_count 0 8 (-3) (by decide)

end Spec2Proof
